import Mathlib

/-!
# Formal model of the FitBot streaming chat decoder

This file gives a shallow embedding of the incremental event-stream decoder
implemented in `src/components/AIChat.tsx` (the body of `sendMessage`), and
proves the spec's testable properties about it.

Modelling conventions:
* text is `List Char`; byte fragments are `List Nat` (values < 256);
* the platform `TextDecoder` with `stream: true` is modelled as a per-byte
  state machine (`utf8Step`) whose pending partial multi-byte sequence is
  carried across fragments;
* `JSON.parse` followed by the optional-chaining extraction
  `parsed.choices?.[0]?.delta?.content` is an external platform facility; it
  is abstracted as a pure function `List Char → ParseOutcome`, where
  `ParseOutcome.fail` models a `JSON.parse` exception and
  `ParseOutcome.ok c` models a successful parse with `c = some s` exactly
  when the extracted `content` field is a truthy string `s`;
* the React `setMessages` functional updates are applied in order to an
  explicit message list.
-/

/-- Role of a chat message (`"user" | "assistant"` in the source). -/
inductive Role where
  | user : Role
  | assistant : Role
deriving DecidableEq

/-- The `Message` interface of `AIChat.tsx`. -/
structure Message where
  role : Role
  content : List Char
deriving DecidableEq

/-- Outcome of `JSON.parse(jsonStr)` plus the extraction
`parsed.choices?.[0]?.delta?.content` and the truthiness test `if (content)`:
`fail` = the parse threw; `ok (some s)` = parsed and the extracted content is
the truthy string `s`; `ok none` = parsed but the content is absent or falsy. -/
inductive ParseOutcome where
  | fail : ParseOutcome
  | ok : Option (List Char) → ParseOutcome
deriving DecidableEq

/-- State of one decoding run: the `textBuffer`, the `streamDone` flag, the
accumulated `assistantContent`, the message list being updated, the (ghost)
ordered list of emitted ContentDelta payloads, and the pending bytes of the
incremental `TextDecoder`. -/
structure DecSt where
  buffer : List Char
  done : Bool
  content : List Char
  messages : List Message
  deltas : List (List Char)
  u8 : List Nat
deriving DecidableEq

/-- The update `newMessages[newMessages.length - 1] = m` on a copy of the list. -/
def setLast (l : List Message) (m : Message) : List Message :=
  l.set (l.length - 1) m

/-- The effect of one truthy delta: `assistantContent += content` followed by
the `setMessages` update that rewrites the last list entry. -/
def pushDelta (c : List Char) (st : DecSt) : DecSt :=
  { st with
    content := st.content ++ c
    deltas := st.deltas ++ [c]
    messages := setLast st.messages ⟨Role.assistant, st.content ++ c⟩ }

/-- The search `textBuffer.indexOf("\n")` plus the two slices: split off the first
`'\n'`-terminated line, if any. -/
def breakLine : List Char → Option (List Char × List Char)
  | [] => none
  | c :: cs =>
    if c = '\n' then some ([], cs)
    else
      match breakLine cs with
      | none => none
      | some (l, r) => some (c :: l, r)

/-- The whitespace predicate of JavaScript `String.prototype.trim`
(restricted to the ASCII whitespace that can occur here). -/
def isWS (c : Char) : Bool :=
  c = ' ' || c = '\t' || c = '\n' || c = '\r' || c = '\x0b' || c = '\x0c'

/-- JavaScript `line.trim()`. -/
def jsTrim (l : List Char) : List Char :=
  ((l.dropWhile isWS).reverse.dropWhile isWS).reverse

/-- The statement `if (line.endsWith("\r")) line = line.slice(0, -1)`. -/
def stripCR (l : List Char) : List Char :=
  if l.getLast? = some '\r' then l.dropLast else l

/-- The literal `"data: "`. -/
def dataPrefix : List Char := "data: ".toList

/-- The sentinel payload `"[DONE]"`. -/
def doneTok : List Char := "[DONE]".toList

/-- The comment marker `":"`. -/
def colonTok : List Char := ":".toList

/-- Classification of one complete (already `\r`-stripped) line, following
the branch ladder of the source loop body. -/
inductive LineVerdict where
  | skip : LineVerdict
  | emit : List Char → LineVerdict
  | finish : LineVerdict
  | bad : LineVerdict
deriving DecidableEq

/-- The branch ladder applied to one extracted line (after `\r`-stripping):
comment / blank / non-`data: ` lines are skipped; `[DONE]` finishes; a line
whose payload fails to parse is `bad`; otherwise the truthy content (if any)
is emitted. -/
def classifyLine (p : List Char → ParseOutcome) (line : List Char) : LineVerdict :=
  if colonTok.isPrefixOf line ∨ jsTrim line = [] then LineVerdict.skip
  else if ¬ dataPrefix.isPrefixOf line then LineVerdict.skip
  else
    let js := jsTrim (line.drop 6)
    if js = doneTok then LineVerdict.finish
    else
      match p js with
      | ParseOutcome.fail => LineVerdict.bad
      | ParseOutcome.ok none => LineVerdict.skip
      | ParseOutcome.ok (some c) => LineVerdict.emit c

/-- The inner `while ((newlineIndex = textBuffer.indexOf("\n")) !== -1)` loop,
written with explicit fuel (one unit per extracted line; each extraction
removes at least the `'\n'`, so `st.buffer.length` units always suffice).
On `bad` the (stripped) line plus a newline is pushed back and the loop
breaks; on `finish` the loop breaks with `streamDone = true`. -/
def procLines (p : List Char → ParseOutcome) : Nat → DecSt → DecSt
  | 0, st => st
  | fuel + 1, st =>
    match breakLine st.buffer with
    | none => st
    | some (l, r) =>
      match classifyLine p (stripCR l) with
      | LineVerdict.skip => procLines p fuel { st with buffer := r }
      | LineVerdict.emit c => procLines p fuel (pushDelta c { st with buffer := r })
      | LineVerdict.finish => { st with buffer := r, done := true }
      | LineVerdict.bad => { st with buffer := stripCR l ++ '\n' :: r }

/-- Run the line-extraction loop to completion on the current buffer. -/
def processBuffer (p : List Char → ParseOutcome) (st : DecSt) : DecSt :=
  procLines p st.buffer.length st

/-- One iteration of the outer read loop at the text level: append the newly
decoded text to `textBuffer`, then extract lines. -/
def feed (p : List Char → ParseOutcome) (st : DecSt) (t : List Char) : DecSt :=
  processBuffer p { st with buffer := st.buffer ++ t }

/-- The outer `while (!streamDone)` read loop over a list of already-decoded
text fragments; once `streamDone` is set no further fragment is consumed. -/
def runFragments (p : List Char → ParseOutcome) : DecSt → List (List Char) → DecSt
  | st, [] => st
  | st, f :: fs => if st.done then st else runFragments p (feed p st f) fs

/-- Number of bytes of the UTF-8 sequence announced by a lead byte
(`0` for an invalid lead byte). -/
def leadLen (b : Nat) : Nat :=
  if b < 128 then 1
  else if b < 192 then 0
  else if b < 224 then 2
  else if b < 240 then 3
  else if b < 248 then 4
  else 0

/-- Is `b` a UTF-8 continuation byte? -/
def isCont (b : Nat) : Bool := 128 ≤ b && b < 192

/-- Assemble the code point of one complete UTF-8 sequence. -/
def utf8Combine : List Nat → Char
  | [b] => Char.ofNat b
  | [b1, b2] => Char.ofNat ((b1 % 32) * 64 + b2 % 64)
  | [b1, b2, b3] => Char.ofNat ((b1 % 16) * 4096 + (b2 % 64) * 64 + b3 % 64)
  | [b1, b2, b3, b4] =>
    Char.ofNat ((b1 % 8) * 262144 + (b2 % 64) * 4096 + (b3 % 64) * 64 + b4 % 64)
  | _ => Char.ofNat 0xFFFD

/-- One byte of the streaming `TextDecoder`: the state is the pending
incomplete multi-byte sequence. On malformed input a replacement character
is produced (the exact replacement policy of the platform decoder is not
relied on by any theorem: all claims compare two runs of the same decoder). -/
def utf8Step (pend : List Nat) (b : Nat) : List Char × List Nat :=
  match pend with
  | [] =>
    if leadLen b = 1 then ([Char.ofNat b], [])
    else if leadLen b = 0 then ([Char.ofNat 0xFFFD], [])
    else ([], [b])
  | p0 :: _ =>
    if isCont b then
      if (pend ++ [b]).length = leadLen p0 then ([utf8Combine (pend ++ [b])], [])
      else ([], pend ++ [b])
    else
      if leadLen b = 1 then ([Char.ofNat 0xFFFD, Char.ofNat b], [])
      else if leadLen b = 0 then ([Char.ofNat 0xFFFD, Char.ofNat 0xFFFD], [])
      else ([Char.ofNat 0xFFFD], [b])

/-- Accumulator step for decoding one byte: extend the text produced so far
and update the pending bytes. -/
def u8Acc (a : List Char × List Nat) (b : Nat) : List Char × List Nat :=
  let s := utf8Step a.2 b
  (a.1 ++ s.1, s.2)

/-- The call `decoder.decode(value, stream mode)`: decode a byte fragment,
carrying the pending partial sequence across calls. -/
def decodeChunk (pend : List Nat) (bs : List Nat) : List Char × List Nat :=
  bs.foldl u8Acc ([], pend)

/-- One iteration of the outer read loop at the byte level. -/
def feedBytes (p : List Char → ParseOutcome) (st : DecSt) (frag : List Nat) : DecSt :=
  let d := decodeChunk st.u8 frag
  feed p { st with u8 := d.2 } d.1

/-- The outer read loop over the byte fragments delivered by the transport. -/
def runBytes (p : List Char → ParseOutcome) : DecSt → List (List Nat) → DecSt
  | st, [] => st
  | st, f :: fs => if st.done then st else runBytes p (feedBytes p st f) fs

/-- Decoder state at the start of a stream: empty buffer, `streamDone =
false`, empty `assistantContent`, and the empty assistant placeholder
appended to the message list. -/
def initDecSt (msgs : List Message) : DecSt :=
  ⟨[], false, [], msgs ++ [⟨Role.assistant, []⟩], [], []⟩

/-- The externally observable part of a decoder state: termination flag,
emitted deltas, accumulated reply text and the message list (the internal
text buffer and pending decoder bytes are not observable). -/
def obs (st : DecSt) : Bool × List (List Char) × List Char × List Message :=
  (st.done, st.deltas, st.content, st.messages)

/-- Worker for `linesOf`; the accumulator holds the current line reversed. -/
def linesAux : List Char → List Char → List (List Char)
  | _, [] => []
  | acc, c :: cs =>
    if c = '\n' then acc.reverse :: linesAux [] cs else linesAux (c :: acc) cs

/-- The complete (`'\n'`-terminated) lines of a text, in order; a trailing
partial line is not included. -/
def linesOf (t : List Char) : List (List Char) := linesAux [] t

/-- A stream text is well formed when no complete line of it classifies as
`bad`, i.e. every `data: ` line whose payload is not the sentinel parses. -/
def wellFormed (p : List Char → ParseOutcome) (t : List Char) : Prop :=
  ∀ l ∈ linesOf t, classifyLine p (stripCR l) ≠ LineVerdict.bad

/-! ## Basic lemmas about lines and the buffer -/

theorem breakLine_eq_some {t l r : List Char} (h : breakLine t = some (l, r)) :
    t = l ++ '\n' :: r ∧ '\n' ∉ l := by
  induction t generalizing l r with
  | nil => simp [breakLine] at h
  | cons c cs ih =>
    by_cases hc : c = '\n'
    · subst hc
      simp [breakLine] at h
      obtain ⟨hl, hr⟩ := h
      subst hl; subst hr
      simp
    · simp [breakLine, hc] at h
      cases hbl : breakLine cs with
      | none => rw [hbl] at h; simp at h
      | some pr =>
        obtain ⟨l', r'⟩ := pr
        rw [hbl] at h
        simp at h
        obtain ⟨hl, hr⟩ := h
        subst hl; subst hr
        obtain ⟨h1, h2⟩ := ih hbl
        constructor
        · rw [h1]; simp
        · simp [h2]
          intro hcontra
          exact hc hcontra.symm

theorem breakLine_intro {l : List Char} (r : List Char) (h : '\n' ∉ l) :
    breakLine (l ++ '\n' :: r) = some (l, r) := by
  induction l with
  | nil => simp [breakLine]
  | cons c cs ih =>
    have hc : ¬ c = '\n' := by
      intro hc; exact h (by simp [hc])
    have hcs : '\n' ∉ cs := by
      intro hm; exact h (by simp [hm])
    simp [breakLine, hc, ih hcs]

theorem breakLine_append {t l r : List Char} (v : List Char)
    (h : breakLine t = some (l, r)) :
    breakLine (t ++ v) = some (l, r ++ v) := by
  obtain ⟨ht, hl⟩ := breakLine_eq_some h
  subst ht
  rw [List.append_assoc, List.cons_append]
  exact breakLine_intro (r ++ v) hl

theorem breakLine_nil : breakLine [] = none := rfl

theorem linesAux_of_line {l : List Char} (acc r : List Char) (h : '\n' ∉ l) :
    linesAux acc (l ++ '\n' :: r) = (acc.reverse ++ l) :: linesAux [] r := by
  induction l generalizing acc with
  | nil => simp [linesAux]
  | cons c cs ih =>
    have hc : ¬ c = '\n' := by
      intro hc; exact h (by simp [hc])
    have hcs : '\n' ∉ cs := by
      intro hm; exact h (by simp [hm])
    simp only [List.cons_append, linesAux, if_neg hc, List.append_eq]
    rw [ih (c :: acc) hcs]
    simp

theorem linesOf_cons {l : List Char} (r : List Char) (h : '\n' ∉ l) :
    linesOf (l ++ '\n' :: r) = l :: linesOf r := by
  have hx := linesAux_of_line (l := l) [] r h
  simpa [linesOf] using hx

theorem pushDelta_buffer (c : List Char) (st : DecSt) :
    (pushDelta c st).buffer = st.buffer := rfl

theorem pushDelta_done (c : List Char) (st : DecSt) :
    (pushDelta c st).done = st.done := rfl

theorem pushDelta_u8 (c : List Char) (st : DecSt) :
    (pushDelta c st).u8 = st.u8 := rfl

theorem procLines_mono (p : List Char → ParseOutcome) :
    ∀ f1 : Nat, ∀ st : DecSt, ∀ f2 : Nat,
      st.buffer.length ≤ f1 → st.buffer.length ≤ f2 →
      procLines p f1 st = procLines p f2 st := by
  intro f1
  induction f1 with
  | zero =>
    intro st f2 h1 _
    have hb : st.buffer = [] := List.eq_nil_of_length_eq_zero (Nat.le_zero.mp h1)
    cases f2 with
    | zero => rfl
    | succ f2 => simp [procLines, hb, breakLine_nil]
  | succ f1 ih =>
    intro st f2 h1 h2
    cases f2 with
    | zero =>
      have hb : st.buffer = [] := List.eq_nil_of_length_eq_zero (Nat.le_zero.mp h2)
      simp [procLines, hb, breakLine_nil]
    | succ f2 =>
      cases hbl : breakLine st.buffer with
      | none => simp [procLines, hbl]
      | some pr =>
        obtain ⟨l, r⟩ := pr
        obtain ⟨ht, hnl⟩ := breakLine_eq_some hbl
        have hlen : st.buffer.length = l.length + r.length + 1 := by
          rw [ht]; simp only [List.length_append, List.length_cons]; omega
        have hr1 : r.length ≤ f1 := by omega
        have hr2 : r.length ≤ f2 := by omega
        simp only [procLines, hbl]
        cases hcl : classifyLine p (stripCR l) with
        | skip => exact ih { st with buffer := r } f2 hr1 hr2
        | emit c => exact ih (pushDelta c { st with buffer := r }) f2 hr1 hr2
        | finish => rfl
        | bad => rfl

theorem processBuffer_none {p : List Char → ParseOutcome} {st : DecSt}
    (h : breakLine st.buffer = none) : processBuffer p st = st := by
  unfold processBuffer
  cases hn : st.buffer.length with
  | zero => rfl
  | succ n => simp [procLines, h]

theorem processBuffer_skip {p : List Char → ParseOutcome} {st : DecSt}
    {l r : List Char} (hbl : breakLine st.buffer = some (l, r))
    (hcl : classifyLine p (stripCR l) = LineVerdict.skip) :
    processBuffer p st = processBuffer p { st with buffer := r } := by
  obtain ⟨ht, hnl⟩ := breakLine_eq_some hbl
  have hlen : st.buffer.length = l.length + r.length + 1 := by
    rw [ht]; simp only [List.length_append, List.length_cons]; omega
  unfold processBuffer
  rw [hlen]
  simp only [procLines, hbl, hcl]
  exact procLines_mono p _ _ _ (by simp) (by simp)

theorem processBuffer_emit {p : List Char → ParseOutcome} {st : DecSt}
    {l r c : List Char} (hbl : breakLine st.buffer = some (l, r))
    (hcl : classifyLine p (stripCR l) = LineVerdict.emit c) :
    processBuffer p st = processBuffer p (pushDelta c { st with buffer := r }) := by
  obtain ⟨ht, hnl⟩ := breakLine_eq_some hbl
  have hlen : st.buffer.length = l.length + r.length + 1 := by
    rw [ht]; simp only [List.length_append, List.length_cons]; omega
  unfold processBuffer
  rw [hlen]
  simp only [procLines, hbl, hcl]
  exact procLines_mono p _ _ _ (by simp [pushDelta_buffer]) (by simp [pushDelta_buffer])

theorem processBuffer_finish {p : List Char → ParseOutcome} {st : DecSt}
    {l r : List Char} (hbl : breakLine st.buffer = some (l, r))
    (hcl : classifyLine p (stripCR l) = LineVerdict.finish) :
    processBuffer p st = { st with buffer := r, done := true } := by
  obtain ⟨ht, hnl⟩ := breakLine_eq_some hbl
  have hlen : st.buffer.length = l.length + r.length + 1 := by
    rw [ht]; simp only [List.length_append, List.length_cons]; omega
  unfold processBuffer
  rw [hlen]
  simp only [procLines, hbl, hcl]

theorem processBuffer_bad {p : List Char → ParseOutcome} {st : DecSt}
    {l r : List Char} (hbl : breakLine st.buffer = some (l, r))
    (hcl : classifyLine p (stripCR l) = LineVerdict.bad) :
    processBuffer p st = { st with buffer := stripCR l ++ '\n' :: r } := by
  obtain ⟨ht, hnl⟩ := breakLine_eq_some hbl
  have hlen : st.buffer.length = l.length + r.length + 1 := by
    rw [ht]; simp only [List.length_append, List.length_cons]; omega
  unfold processBuffer
  rw [hlen]
  simp only [procLines, hbl, hcl]

theorem pushDelta_set_buffer (c x : List Char) (st : DecSt) :
    pushDelta c { st with buffer := x } = { pushDelta c st with buffer := x } := rfl

theorem wellFormed_cons {p : List Char → ParseOutcome} {l : List Char}
    (r : List Char) (h : '\n' ∉ l) :
    wellFormed p (l ++ '\n' :: r) ↔
      (classifyLine p (stripCR l) ≠ LineVerdict.bad ∧ wellFormed p r) := by
  unfold wellFormed
  rw [linesOf_cons r h]
  simp

theorem procLines_u8 (p : List Char → ParseOutcome) :
    ∀ f : Nat, ∀ st : DecSt, (procLines p f st).u8 = st.u8 := by
  intro f
  induction f with
  | zero => intro st; rfl
  | succ f ih =>
    intro st
    cases hbl : breakLine st.buffer with
    | none => simp [procLines, hbl]
    | some pr =>
      obtain ⟨l, r⟩ := pr
      simp only [procLines, hbl]
      cases hcl : classifyLine p (stripCR l) with
      | skip => exact ih { st with buffer := r }
      | emit c =>
        have := ih (pushDelta c { st with buffer := r })
        simpa [pushDelta_u8] using this
      | finish => rfl
      | bad => rfl

theorem processBuffer_u8 (p : List Char → ParseOutcome) (st : DecSt) :
    (processBuffer p st).u8 = st.u8 :=
  procLines_u8 p st.buffer.length st

theorem procLines_set_u8 (p : List Char → ParseOutcome) :
    ∀ f : Nat, ∀ st : DecSt, ∀ q : List Nat,
      procLines p f { st with u8 := q } = { procLines p f st with u8 := q } := by
  intro f
  induction f with
  | zero => intro st q; rfl
  | succ f ih =>
    intro st q
    cases hbl : breakLine st.buffer with
    | none => simp [procLines, hbl]
    | some pr =>
      obtain ⟨l, r⟩ := pr
      simp only [procLines, hbl]
      cases hcl : classifyLine p (stripCR l) with
      | skip => exact ih { st with buffer := r } q
      | emit c => exact ih (pushDelta c { st with buffer := r }) q
      | finish => rfl
      | bad => rfl

theorem processBuffer_set_u8 (p : List Char → ParseOutcome) (st : DecSt) (q : List Nat) :
    processBuffer p { st with u8 := q } = { processBuffer p st with u8 := q } := by
  unfold processBuffer
  exact procLines_set_u8 p st.buffer.length st q

/-- If processing the buffer reaches the `[DONE]` sentinel, then processing
with any extra text appended stops at the same place, with the extra text
left unconsumed at the end of the buffer. -/
theorem processBuffer_append_done (p : List Char → ParseOutcome) :
    ∀ n : Nat, ∀ st : DecSt, ∀ b : List Char,
      st.buffer.length ≤ n → st.done = false → (processBuffer p st).done = true →
      processBuffer p { st with buffer := st.buffer ++ b } =
        { processBuffer p st with buffer := (processBuffer p st).buffer ++ b } := by
  intro n
  induction n with
  | zero =>
    intro st b h1 h2 h3
    have hb : st.buffer = [] := List.eq_nil_of_length_eq_zero (Nat.le_zero.mp h1)
    rw [processBuffer_none (by rw [hb]; rfl)] at h3
    rw [h2] at h3
    exact absurd h3 (by simp)
  | succ n ih =>
    intro st b h1 h2 h3
    cases hbl : breakLine st.buffer with
    | none =>
      rw [processBuffer_none hbl] at h3
      rw [h2] at h3
      exact absurd h3 (by simp)
    | some pr =>
      obtain ⟨l, r⟩ := pr
      obtain ⟨ht, hnl⟩ := breakLine_eq_some hbl
      have hlen : st.buffer.length = l.length + r.length + 1 := by
        rw [ht]; simp only [List.length_append, List.length_cons]; omega
      have hblb : breakLine ({ st with buffer := st.buffer ++ b }).buffer = some (l, r ++ b) := by
        simpa using breakLine_append b hbl
      cases hcl : classifyLine p (stripCR l) with
      | skip =>
        rw [processBuffer_skip hbl hcl] at h3 ⊢
        rw [processBuffer_skip hblb hcl]
        have hx := ih { st with buffer := r } b (by simp; omega) (by simp [h2]) h3
        simpa using hx
      | emit c =>
        rw [processBuffer_emit hbl hcl] at h3 ⊢
        rw [processBuffer_emit hblb hcl]
        have hx := ih (pushDelta c { st with buffer := r }) b
          (by simp [pushDelta_buffer]; omega) (by simp [pushDelta_done, h2]) h3
        simpa [pushDelta_set_buffer] using hx
      | finish =>
        rw [processBuffer_finish hbl hcl, processBuffer_finish hblb hcl]
      | bad =>
        rw [processBuffer_bad hbl hcl] at h3
        simp [h2] at h3

/-- If processing the buffer runs it dry without reaching `[DONE]` (and, by
well-formedness, without a parse failure), then processing with extra text
appended equals processing the residue with the extra text appended. -/
theorem processBuffer_append_run (p : List Char → ParseOutcome) :
    ∀ n : Nat, ∀ st : DecSt, ∀ b : List Char,
      st.buffer.length ≤ n → st.done = false → (processBuffer p st).done = false →
      wellFormed p (st.buffer ++ b) →
      processBuffer p { st with buffer := st.buffer ++ b } =
        processBuffer p
          { processBuffer p st with buffer := (processBuffer p st).buffer ++ b } := by
  intro n
  induction n with
  | zero =>
    intro st b h1 h2 h3 hwf
    have hb : st.buffer = [] := List.eq_nil_of_length_eq_zero (Nat.le_zero.mp h1)
    have hRn : processBuffer p st = st := processBuffer_none (by rw [hb]; rfl)
    rw [hRn]
  | succ n ih =>
    intro st b h1 h2 h3 hwf
    cases hbl : breakLine st.buffer with
    | none => rw [processBuffer_none hbl]
    | some pr =>
      obtain ⟨l, r⟩ := pr
      obtain ⟨ht, hnl⟩ := breakLine_eq_some hbl
      have hlen : st.buffer.length = l.length + r.length + 1 := by
        rw [ht]; simp only [List.length_append, List.length_cons]; omega
      have hblb : breakLine ({ st with buffer := st.buffer ++ b }).buffer = some (l, r ++ b) := by
        simpa using breakLine_append b hbl
      have hwf' : wellFormed p (l ++ '\n' :: (r ++ b)) := by
        rw [ht] at hwf
        simpa [List.append_assoc] using hwf
      obtain ⟨hok, hwfr⟩ := (wellFormed_cons (r ++ b) hnl).mp hwf'
      cases hcl : classifyLine p (stripCR l) with
      | skip =>
        rw [processBuffer_skip hbl hcl] at h3 ⊢
        rw [processBuffer_skip hblb hcl]
        have hx := ih { st with buffer := r } b (by simp; omega) (by simp [h2]) h3
          (by simpa using hwfr)
        simpa using hx
      | emit c =>
        rw [processBuffer_emit hbl hcl] at h3 ⊢
        rw [processBuffer_emit hblb hcl]
        have hx := ih (pushDelta c { st with buffer := r }) b
          (by simp [pushDelta_buffer]; omega) (by simp [pushDelta_done, h2]) h3
          (by simpa [pushDelta_buffer] using hwfr)
        simpa [pushDelta_set_buffer] using hx
      | finish =>
        rw [processBuffer_finish hbl hcl] at h3
        simp at h3
      | bad => exact absurd hcl hok

/-- Processing a well-formed buffer preserves well-formedness of what
remains (together with any future text). -/
theorem processBuffer_wf (p : List Char → ParseOutcome) :
    ∀ n : Nat, ∀ st : DecSt, ∀ z : List Char,
      st.buffer.length ≤ n → wellFormed p (st.buffer ++ z) →
      wellFormed p ((processBuffer p st).buffer ++ z) := by
  intro n
  induction n with
  | zero =>
    intro st z h1 hwf
    have hb : st.buffer = [] := List.eq_nil_of_length_eq_zero (Nat.le_zero.mp h1)
    rw [processBuffer_none (by rw [hb]; rfl)]
    exact hwf
  | succ n ih =>
    intro st z h1 hwf
    cases hbl : breakLine st.buffer with
    | none => rw [processBuffer_none hbl]; exact hwf
    | some pr =>
      obtain ⟨l, r⟩ := pr
      obtain ⟨ht, hnl⟩ := breakLine_eq_some hbl
      have hlen : st.buffer.length = l.length + r.length + 1 := by
        rw [ht]; simp only [List.length_append, List.length_cons]; omega
      have hwf' : wellFormed p (l ++ '\n' :: (r ++ z)) := by
        rw [ht] at hwf
        simpa [List.append_assoc] using hwf
      obtain ⟨hok, hwfr⟩ := (wellFormed_cons (r ++ z) hnl).mp hwf'
      cases hcl : classifyLine p (stripCR l) with
      | skip =>
        rw [processBuffer_skip hbl hcl]
        have hx := ih { st with buffer := r } z (by simp; omega) (by simpa using hwfr)
        simpa using hx
      | emit c =>
        rw [processBuffer_emit hbl hcl]
        have hx := ih (pushDelta c { st with buffer := r }) z
          (by simp [pushDelta_buffer]; omega) (by simpa [pushDelta_buffer] using hwfr)
        simpa [pushDelta_buffer] using hx
      | finish =>
        rw [processBuffer_finish hbl hcl]
        simpa using hwfr
      | bad => exact absurd hcl hok

/-- On a well-formed buffer, if the loop stops without `[DONE]` then the
residual buffer holds no complete line. -/
theorem processBuffer_residual (p : List Char → ParseOutcome) :
    ∀ n : Nat, ∀ st : DecSt, ∀ z : List Char,
      st.buffer.length ≤ n → wellFormed p (st.buffer ++ z) →
      (processBuffer p st).done = false →
      breakLine (processBuffer p st).buffer = none := by
  intro n
  induction n with
  | zero =>
    intro st z h1 hwf h3
    have hb : st.buffer = [] := List.eq_nil_of_length_eq_zero (Nat.le_zero.mp h1)
    rw [processBuffer_none (by rw [hb]; rfl), hb]
    rfl
  | succ n ih =>
    intro st z h1 hwf h3
    cases hbl : breakLine st.buffer with
    | none => rw [processBuffer_none hbl]; exact hbl
    | some pr =>
      obtain ⟨l, r⟩ := pr
      obtain ⟨ht, hnl⟩ := breakLine_eq_some hbl
      have hlen : st.buffer.length = l.length + r.length + 1 := by
        rw [ht]; simp only [List.length_append, List.length_cons]; omega
      have hwf' : wellFormed p (l ++ '\n' :: (r ++ z)) := by
        rw [ht] at hwf
        simpa [List.append_assoc] using hwf
      obtain ⟨hok, hwfr⟩ := (wellFormed_cons (r ++ z) hnl).mp hwf'
      cases hcl : classifyLine p (stripCR l) with
      | skip =>
        rw [processBuffer_skip hbl hcl] at h3 ⊢
        exact ih { st with buffer := r } z (by simp; omega) (by simpa using hwfr) h3
      | emit c =>
        rw [processBuffer_emit hbl hcl] at h3 ⊢
        exact ih (pushDelta c { st with buffer := r }) z
          (by simp [pushDelta_buffer]; omega) (by simpa [pushDelta_buffer] using hwfr) h3
      | finish =>
        rw [processBuffer_finish hbl hcl] at h3
        simp at h3
      | bad => exact absurd hcl hok

/-! ## Byte-layer lemmas -/

theorem decodeChunk_foldl (bs : List Nat) :
    ∀ (q : List Nat) (acc : List Char),
      bs.foldl u8Acc (acc, q) = (acc ++ (decodeChunk q bs).1, (decodeChunk q bs).2) := by
  induction bs with
  | nil => intro q acc; simp [decodeChunk]
  | cons b bs ih =>
    intro q acc
    have h1 : u8Acc (acc, q) b = (acc ++ (utf8Step q b).1, (utf8Step q b).2) := rfl
    have h2 : u8Acc (([] : List Char), q) b = ([] ++ (utf8Step q b).1, (utf8Step q b).2) := rfl
    simp only [decodeChunk, List.foldl_cons, h1, h2]
    rw [ih (utf8Step q b).2 (acc ++ (utf8Step q b).1), ih (utf8Step q b).2 ([] ++ (utf8Step q b).1)]
    simp [List.append_assoc]

theorem decodeChunk_append (q : List Nat) (a b : List Nat) :
    decodeChunk q (a ++ b) =
      ((decodeChunk q a).1 ++ (decodeChunk (decodeChunk q a).2 b).1,
       (decodeChunk (decodeChunk q a).2 b).2) := by
  have h0 : decodeChunk q (a ++ b) = b.foldl u8Acc (a.foldl u8Acc ([], q)) := by
    simp [decodeChunk, List.foldl_append]
  have h1 : a.foldl u8Acc (([] : List Char), q) = ((decodeChunk q a).1, (decodeChunk q a).2) := by
    simp [decodeChunk]
  rw [h0, h1, decodeChunk_foldl]

theorem feedBytes_eq (p : List Char → ParseOutcome) (st : DecSt) (frag : List Nat) :
    feedBytes p st frag =
      { processBuffer p { st with buffer := st.buffer ++ (decodeChunk st.u8 frag).1 } with
        u8 := (decodeChunk st.u8 frag).2 } := by
  unfold feedBytes feed
  exact processBuffer_set_u8 p { st with buffer := st.buffer ++ (decodeChunk st.u8 frag).1 }
    (decodeChunk st.u8 frag).2

theorem runFragments_done {p : List Char → ParseOutcome} {st : DecSt}
    (h : st.done = true) : ∀ fs : List (List Char), runFragments p st fs = st := by
  intro fs
  cases fs with
  | nil => rfl
  | cons f fs => simp [runFragments, h]

theorem runBytes_done {p : List Char → ParseOutcome} {st : DecSt}
    (h : st.done = true) : ∀ fs : List (List Nat), runBytes p st fs = st := by
  intro fs
  cases fs with
  | nil => rfl
  | cons f fs => simp [runBytes, h]

theorem runBytes_append (p : List Char → ParseOutcome) (gs : List (List Nat)) :
    ∀ fs : List (List Nat), ∀ st : DecSt,
      runBytes p st (fs ++ gs) = runBytes p (runBytes p st fs) gs := by
  intro fs
  induction fs with
  | nil => intro st; simp [runBytes]
  | cons f fs ih =>
    intro st
    by_cases hd : st.done
    · simp [runBytes, hd, runBytes_done hd]
    · simp only [List.cons_append, runBytes, if_neg hd]
      exact ih (feedBytes p st f)

theorem feedBytes_of_set_u8 (p : List Char → ParseOutcome) (R : DecSt)
    (q : List Nat) (x : List Nat) :
    feedBytes p { R with u8 := q } x =
      { processBuffer p { R with buffer := R.buffer ++ (decodeChunk q x).1 } with
        u8 := (decodeChunk q x).2 } := by
  have h1 : feedBytes p { R with u8 := q } x =
      processBuffer p
        { R with buffer := R.buffer ++ (decodeChunk q x).1, u8 := (decodeChunk q x).2 } := rfl
  have h2 : ({ R with buffer := R.buffer ++ (decodeChunk q x).1, u8 := (decodeChunk q x).2 } : DecSt) = { { R with buffer := R.buffer ++ (decodeChunk q x).1 } with u8 := (decodeChunk q x).2 } := rfl
  rw [h1, h2]
  exact processBuffer_set_u8 p { R with buffer := R.buffer ++ (decodeChunk q x).1 }
    (decodeChunk q x).2

/-- Core split-invariance: on a stream whose decoded text is well formed,
consuming the byte fragments one by one is observationally the same as
consuming their concatenation in one shot. -/
theorem runBytes_join (p : List Char → ParseOutcome) :
    ∀ bs : List (List Nat), ∀ st : DecSt,
      st.done = false → breakLine st.buffer = none →
      wellFormed p (st.buffer ++ (decodeChunk st.u8 bs.join).1) →
      obs (runBytes p st bs) = obs (feedBytes p st bs.join) := by
  intro bs
  induction bs with
  | nil =>
    intro st h1 h2 _
    obtain ⟨sb, sd, sc, sm, sdl, su⟩ := st
    have h3 : feedBytes p ⟨sb, sd, sc, sm, sdl, su⟩ (List.join []) =
        { processBuffer p (⟨sb ++ [], sd, sc, sm, sdl, su⟩ : DecSt) with u8 := su } := by
      exact feedBytes_eq p ⟨sb, sd, sc, sm, sdl, su⟩ []
    rw [h3]
    simp only [List.append_nil]
    rw [processBuffer_none (by simpa using h2)]
    rfl
  | cons a rest ih =>
    intro st h1 h2 hwf
    have hjoin : (a :: rest).join = a ++ rest.join := by simp
    -- decode split
    have hdc : decodeChunk st.u8 (a ++ rest.join) =
        ((decodeChunk st.u8 a).1 ++ (decodeChunk (decodeChunk st.u8 a).2 rest.join).1,
         (decodeChunk (decodeChunk st.u8 a).2 rest.join).2) :=
      decodeChunk_append st.u8 a rest.join
    -- abbreviations (as equations, to keep goals syntactic)
    have hwf2 : wellFormed p ((st.buffer ++ (decodeChunk st.u8 a).1) ++
        (decodeChunk (decodeChunk st.u8 a).2 rest.join).1) := by
      rw [hjoin, hdc] at hwf
      simpa [List.append_assoc] using hwf
    have hA : feedBytes p st a =
        { processBuffer p { st with buffer := st.buffer ++ (decodeChunk st.u8 a).1 } with
          u8 := (decodeChunk st.u8 a).2 } := feedBytes_eq p st a
    have hstep : runBytes p st (a :: rest) = runBytes p (feedBytes p st a) rest := by
      simp [runBytes, h1]
    by_cases hd : (processBuffer p { st with buffer := st.buffer ++ (decodeChunk st.u8 a).1 }).done
    · -- the sentinel was reached inside fragment `a`
      have hSdone : (feedBytes p st a).done = true := by rw [hA]; simpa using hd
      have hLHS : runBytes p st (a :: rest) = feedBytes p st a := by
        rw [hstep, runBytes_done hSdone]
      have hcomp := processBuffer_append_done p
        ({ st with buffer := st.buffer ++ (decodeChunk st.u8 a).1 } : DecSt).buffer.length
        { st with buffer := st.buffer ++ (decodeChunk st.u8 a).1 }
        (decodeChunk (decodeChunk st.u8 a).2 rest.join).1
        (le_refl _) (by simpa using h1) hd
      have hRHS : feedBytes p st ((a :: rest).join) =
          { { processBuffer p { st with buffer := st.buffer ++ (decodeChunk st.u8 a).1 } with
              buffer := (processBuffer p
                { st with buffer := st.buffer ++ (decodeChunk st.u8 a).1 }).buffer ++
                (decodeChunk (decodeChunk st.u8 a).2 rest.join).1 } with
            u8 := (decodeChunk (decodeChunk st.u8 a).2 rest.join).2 } := by
        rw [feedBytes_eq p st ((a :: rest).join)]
        rw [show decodeChunk st.u8 ((a :: rest).join) =
            ((decodeChunk st.u8 a).1 ++ (decodeChunk (decodeChunk st.u8 a).2 rest.join).1,
             (decodeChunk (decodeChunk st.u8 a).2 rest.join).2) from by rw [hjoin]; exact hdc]
        rw [show ({ st with buffer := st.buffer ++
              ((decodeChunk st.u8 a).1 ++ (decodeChunk (decodeChunk st.u8 a).2 rest.join).1) } : DecSt) =
            { st with buffer := (st.buffer ++ (decodeChunk st.u8 a).1) ++
              (decodeChunk (decodeChunk st.u8 a).2 rest.join).1 } from by
          simp [List.append_assoc]]
        rw [show ({ st with buffer := (st.buffer ++ (decodeChunk st.u8 a).1) ++
              (decodeChunk (decodeChunk st.u8 a).2 rest.join).1 } : DecSt) =
            { { st with buffer := st.buffer ++ (decodeChunk st.u8 a).1 } with
              buffer := ({ st with buffer := st.buffer ++ (decodeChunk st.u8 a).1 } : DecSt).buffer ++
                (decodeChunk (decodeChunk st.u8 a).2 rest.join).1 } from rfl]
        rw [hcomp]
      rw [hLHS, hRHS, hA]
      simp [obs]
    · -- the sentinel was not reached inside fragment `a`; recurse
      have hdf : (processBuffer p
          { st with buffer := st.buffer ++ (decodeChunk st.u8 a).1 }).done = false := by
        simpa using hd
      have hSdone : (feedBytes p st a).done = false := by
        rw [hA]; simpa using hd
      have hres : breakLine (processBuffer p
          { st with buffer := st.buffer ++ (decodeChunk st.u8 a).1 }).buffer = none :=
        processBuffer_residual p _ _ (decodeChunk (decodeChunk st.u8 a).2 rest.join).1
          (le_refl _) (by simpa using hwf2) hdf
      have hwfres : wellFormed p ((processBuffer p
          { st with buffer := st.buffer ++ (decodeChunk st.u8 a).1 }).buffer ++
          (decodeChunk (decodeChunk st.u8 a).2 rest.join).1) :=
        processBuffer_wf p _ _ _ (le_refl _) (by simpa using hwf2)
      have hcomp := processBuffer_append_run p
        ({ st with buffer := st.buffer ++ (decodeChunk st.u8 a).1 } : DecSt).buffer.length
        { st with buffer := st.buffer ++ (decodeChunk st.u8 a).1 }
        (decodeChunk (decodeChunk st.u8 a).2 rest.join).1
        (le_refl _) (by simpa using h1) hdf (by simpa using hwf2)
      -- the one-shot right-hand side, rewritten through the composition lemma
      have hRHS : feedBytes p st ((a :: rest).join) =
          { processBuffer p
              { processBuffer p { st with buffer := st.buffer ++ (decodeChunk st.u8 a).1 } with
                buffer := (processBuffer p
                  { st with buffer := st.buffer ++ (decodeChunk st.u8 a).1 }).buffer ++
                  (decodeChunk (decodeChunk st.u8 a).2 rest.join).1 } with
            u8 := (decodeChunk (decodeChunk st.u8 a).2 rest.join).2 } := by
        rw [feedBytes_eq p st ((a :: rest).join)]
        rw [show decodeChunk st.u8 ((a :: rest).join) =
            ((decodeChunk st.u8 a).1 ++ (decodeChunk (decodeChunk st.u8 a).2 rest.join).1,
             (decodeChunk (decodeChunk st.u8 a).2 rest.join).2) from by rw [hjoin]; exact hdc]
        rw [show ({ st with buffer := st.buffer ++
              ((decodeChunk st.u8 a).1 ++ (decodeChunk (decodeChunk st.u8 a).2 rest.join).1) } : DecSt) =
            { { st with buffer := st.buffer ++ (decodeChunk st.u8 a).1 } with
              buffer := ({ st with buffer := st.buffer ++ (decodeChunk st.u8 a).1 } : DecSt).buffer ++
                (decodeChunk (decodeChunk st.u8 a).2 rest.join).1 } from by
          simp [List.append_assoc]]
        rw [hcomp]
      -- the recursive left-hand side
      have hSfeed : feedBytes p (feedBytes p st a) rest.join =
          { processBuffer p
              { processBuffer p { st with buffer := st.buffer ++ (decodeChunk st.u8 a).1 } with
                buffer := (processBuffer p
                  { st with buffer := st.buffer ++ (decodeChunk st.u8 a).1 }).buffer ++
                  (decodeChunk (decodeChunk st.u8 a).2 rest.join).1 } with
            u8 := (decodeChunk (decodeChunk st.u8 a).2 rest.join).2 } := by
        rw [hA]
        exact feedBytes_of_set_u8 p
          (processBuffer p { st with buffer := st.buffer ++ (decodeChunk st.u8 a).1 })
          (decodeChunk st.u8 a).2 rest.join
      have hih := ih (feedBytes p st a) hSdone (by rw [hA]; simpa using hres)
        (by rw [hA]; simpa using hwfres)
      rw [hstep, hih, hSfeed, hRHS]

/-! ## Invariants: deltas, reply text, and the message list -/

theorem getLast?_app_one (l : List Message) (m : Message) :
    (l ++ [m]).getLast? = some m := by
  rw [List.getLast?_append_of_ne_nil l (by simp)]
  rfl

theorem setLast_eq (l : List Message) (m : Message) (h : l ≠ []) :
    setLast l m = l.dropLast ++ [m] := by
  induction l with
  | nil => exact absurd rfl h
  | cons x xs ih =>
    cases xs with
    | nil => rfl
    | cons y ys =>
      have hx : setLast (y :: ys) m = (y :: ys).dropLast ++ [m] := ih (by simp)
      unfold setLast at hx ⊢
      simp only [List.length_cons, Nat.add_sub_cancel] at hx ⊢
      rw [List.set_cons_succ, hx]
      simp

theorem getLast?_setLast (l : List Message) (m : Message) (h : l ≠ []) :
    (setLast l m).getLast? = some m := by
  rw [setLast_eq l m h]
  exact getLast?_app_one _ _

theorem take_set_self (m : Message) :
    ∀ l : List Message, ∀ n : Nat, (l.set n m).take n = l.take n := by
  intro l
  induction l with
  | nil => intro n; rfl
  | cons x xs ih =>
    intro n
    cases n with
    | zero => rfl
    | succ n => simp only [List.set_cons_succ, List.take_succ_cons, ih n]

theorem setLast_length (l : List Message) (m : Message) :
    (setLast l m).length = l.length := by
  unfold setLast
  exact List.length_set l (l.length - 1) m

theorem procLines_deltas (p : List Char → ParseOutcome) :
    ∀ f : Nat, ∀ st : DecSt, ∃ d : List (List Char),
      (procLines p f st).deltas = st.deltas ++ d ∧
      (procLines p f st).content = st.content ++ d.join := by
  intro f
  induction f with
  | zero => intro st; exact ⟨[], by simp [procLines], by simp [procLines]⟩
  | succ f ih =>
    intro st
    cases hbl : breakLine st.buffer with
    | none => exact ⟨[], by simp [procLines, hbl], by simp [procLines, hbl]⟩
    | some pr =>
      obtain ⟨l, r⟩ := pr
      cases hcl : classifyLine p (stripCR l) with
      | skip =>
        obtain ⟨d, h1, h2⟩ := ih { st with buffer := r }
        refine ⟨d, ?_, ?_⟩
        · simp only [procLines, hbl, hcl]; simpa using h1
        · simp only [procLines, hbl, hcl]; simpa using h2
      | emit c =>
        obtain ⟨d, h1, h2⟩ := ih (pushDelta c { st with buffer := r })
        refine ⟨c :: d, ?_, ?_⟩
        · simp only [procLines, hbl, hcl]
          rw [h1]
          simp [pushDelta]
        · simp only [procLines, hbl, hcl]
          rw [h2]
          simp [pushDelta, List.append_assoc]
      | finish => exact ⟨[], by simp [procLines, hbl, hcl], by simp [procLines, hbl, hcl]⟩
      | bad => exact ⟨[], by simp [procLines, hbl, hcl], by simp [procLines, hbl, hcl]⟩

theorem procLines_last (p : List Char → ParseOutcome) :
    ∀ f : Nat, ∀ st : DecSt,
      st.messages.getLast?.map Message.content = some st.content →
      (procLines p f st).messages.getLast?.map Message.content =
        some (procLines p f st).content := by
  intro f
  induction f with
  | zero => intro st h; exact h
  | succ f ih =>
    intro st h
    cases hbl : breakLine st.buffer with
    | none => simpa [procLines, hbl] using h
    | some pr =>
      obtain ⟨l, r⟩ := pr
      cases hcl : classifyLine p (stripCR l) with
      | skip =>
        simp only [procLines, hbl, hcl]
        exact ih { st with buffer := r } (by simpa using h)
      | emit c =>
        simp only [procLines, hbl, hcl]
        refine ih (pushDelta c { st with buffer := r }) ?_
        have hne : st.messages ≠ [] := by
          intro hx
          rw [hx] at h
          simp at h
        have hg : (setLast st.messages ⟨Role.assistant, st.content ++ c⟩).getLast? =
            some ⟨Role.assistant, st.content ++ c⟩ := getLast?_setLast _ _ hne
        show (setLast st.messages ⟨Role.assistant, st.content ++ c⟩).getLast?.map
            Message.content = some (st.content ++ c)
        rw [hg]
        rfl
      | finish => simpa [procLines, hbl, hcl] using h
      | bad => simpa [procLines, hbl, hcl] using h

theorem procLines_frame (p : List Char → ParseOutcome) :
    ∀ f : Nat, ∀ st : DecSt,
      (procLines p f st).messages.length = st.messages.length ∧
      (procLines p f st).messages.take (st.messages.length - 1) =
        st.messages.take (st.messages.length - 1) := by
  intro f
  induction f with
  | zero => intro st; exact ⟨rfl, rfl⟩
  | succ f ih =>
    intro st
    cases hbl : breakLine st.buffer with
    | none => constructor <;> simp [procLines, hbl]
    | some pr =>
      obtain ⟨l, r⟩ := pr
      cases hcl : classifyLine p (stripCR l) with
      | skip =>
        obtain ⟨h1, h2⟩ := ih { st with buffer := r }
        constructor
        · simp only [procLines, hbl, hcl]; simpa using h1
        · simp only [procLines, hbl, hcl]; simpa using h2
      | emit c =>
        obtain ⟨h1, h2⟩ := ih (pushDelta c { st with buffer := r })
        have hl : (pushDelta c { st with buffer := r }).messages.length =
            st.messages.length := by
          show (setLast st.messages _).length = _
          exact setLast_length _ _
        constructor
        · simp only [procLines, hbl, hcl]
          rw [h1, hl]
        · simp only [procLines, hbl, hcl]
          rw [show st.messages.length - 1 = (pushDelta c { st with buffer := r }).messages.length - 1 from by rw [hl]]
          rw [h2]
          rw [hl]
          show (setLast st.messages _).take (st.messages.length - 1) = _
          unfold setLast
          exact take_set_self _ _ _
      | finish => constructor <;> simp [procLines, hbl, hcl]
      | bad => constructor <;> simp [procLines, hbl, hcl]

theorem processBuffer_deltas (p : List Char → ParseOutcome) (st : DecSt) :
    ∃ d : List (List Char),
      (processBuffer p st).deltas = st.deltas ++ d ∧
      (processBuffer p st).content = st.content ++ d.join :=
  procLines_deltas p st.buffer.length st

theorem processBuffer_last (p : List Char → ParseOutcome) (st : DecSt)
    (h : st.messages.getLast?.map Message.content = some st.content) :
    (processBuffer p st).messages.getLast?.map Message.content =
      some (processBuffer p st).content :=
  procLines_last p st.buffer.length st h

theorem processBuffer_frame (p : List Char → ParseOutcome) (st : DecSt) :
    (processBuffer p st).messages.length = st.messages.length ∧
    (processBuffer p st).messages.take (st.messages.length - 1) =
      st.messages.take (st.messages.length - 1) :=
  procLines_frame p st.buffer.length st

theorem feedBytes_deltas (p : List Char → ParseOutcome) (st : DecSt) (fb : List Nat) :
    ∃ d : List (List Char),
      (feedBytes p st fb).deltas = st.deltas ++ d ∧
      (feedBytes p st fb).content = st.content ++ d.join := by
  obtain ⟨d, h1, h2⟩ := processBuffer_deltas p
    { st with buffer := st.buffer ++ (decodeChunk st.u8 fb).1 }
  refine ⟨d, ?_, ?_⟩
  · rw [feedBytes_eq]; simpa using h1
  · rw [feedBytes_eq]; simpa using h2

theorem feedBytes_last (p : List Char → ParseOutcome) (st : DecSt) (fb : List Nat)
    (h : st.messages.getLast?.map Message.content = some st.content) :
    (feedBytes p st fb).messages.getLast?.map Message.content =
      some (feedBytes p st fb).content := by
  have hA := processBuffer_last p
    { st with buffer := st.buffer ++ (decodeChunk st.u8 fb).1 } (by simpa using h)
  rw [feedBytes_eq]
  simpa using hA

theorem feedBytes_frame (p : List Char → ParseOutcome) (st : DecSt) (fb : List Nat) :
    (feedBytes p st fb).messages.length = st.messages.length ∧
    (feedBytes p st fb).messages.take (st.messages.length - 1) =
      st.messages.take (st.messages.length - 1) := by
  obtain ⟨h1, h2⟩ := processBuffer_frame p
    { st with buffer := st.buffer ++ (decodeChunk st.u8 fb).1 }
  constructor
  · rw [feedBytes_eq]; simpa using h1
  · rw [feedBytes_eq]; simpa using h2

theorem runBytes_deltas (p : List Char → ParseOutcome) :
    ∀ fs : List (List Nat), ∀ st : DecSt, ∃ d : List (List Char),
      (runBytes p st fs).deltas = st.deltas ++ d ∧
      (runBytes p st fs).content = st.content ++ d.join := by
  intro fs
  induction fs with
  | nil => intro st; exact ⟨[], by simp [runBytes], by simp [runBytes]⟩
  | cons f fs ih =>
    intro st
    by_cases hd : st.done
    · exact ⟨[], by simp [runBytes, hd], by simp [runBytes, hd]⟩
    · obtain ⟨d1, ha1, ha2⟩ := feedBytes_deltas p st f
      obtain ⟨d2, hb1, hb2⟩ := ih (feedBytes p st f)
      refine ⟨d1 ++ d2, ?_, ?_⟩
      · simp only [runBytes, if_neg hd]
        rw [hb1, ha1, List.append_assoc]
      · simp only [runBytes, if_neg hd]
        rw [hb2, ha2]
        simp [List.append_assoc]

theorem runBytes_last (p : List Char → ParseOutcome) :
    ∀ fs : List (List Nat), ∀ st : DecSt,
      st.messages.getLast?.map Message.content = some st.content →
      (runBytes p st fs).messages.getLast?.map Message.content =
        some (runBytes p st fs).content := by
  intro fs
  induction fs with
  | nil => intro st h; exact h
  | cons f fs ih =>
    intro st h
    by_cases hd : st.done
    · simpa [runBytes, hd] using h
    · simp only [runBytes, if_neg hd]
      exact ih (feedBytes p st f) (feedBytes_last p st f h)

theorem runBytes_frame (p : List Char → ParseOutcome) :
    ∀ fs : List (List Nat), ∀ st : DecSt,
      (runBytes p st fs).messages.length = st.messages.length ∧
      (runBytes p st fs).messages.take (st.messages.length - 1) =
        st.messages.take (st.messages.length - 1) := by
  intro fs
  induction fs with
  | nil => intro st; exact ⟨rfl, rfl⟩
  | cons f fs ih =>
    intro st
    by_cases hd : st.done
    · constructor <;> simp [runBytes, hd]
    · obtain ⟨l1, t1⟩ := feedBytes_frame p st f
      obtain ⟨l2, t2⟩ := ih (feedBytes p st f)
      constructor
      · simp only [runBytes, if_neg hd]
        rw [l2, l1]
      · simp only [runBytes, if_neg hd]
        rw [l1] at t2
        rw [t2, t1]

/-! ## The surrounding `sendMessage` handler -/

/-- UI-level state of the chat widget: the message list, the input box text
and the `loading` flag. -/
structure AppState where
  messages : List Message
  input : List Char
  loading : Bool
deriving DecidableEq

/-- Outcome of the transport for one request: a non-success HTTP response
(`!response.ok`), a response without a readable body, or a streaming body
that delivers `frags` and then either ends cleanly (second field `false`) or
makes the next `reader.read()` throw (second field `true`). -/
inductive Outcome where
  | httpError : Outcome
  | noBody : Outcome
  | stream : List (List Nat) → Bool → Outcome

/-- Caller-observable result of one `sendMessage` run: the final UI state
and the number of error toasts raised. -/
structure SendResult where
  state : AppState
  toasts : Nat
deriving DecidableEq

/-- The whole `sendMessage` handler of `AIChat.tsx`: the
`if (!input.trim() || loading) return` guard, the user-message append, the
input reset, the streaming loop, and the `catch`/`finally` handlers. In the
`catch` handler a single toast is raised and
`setMessages(prev => prev.slice(0, -1))` removes the last list entry. A
stream abort is observed only if the read loop is still running
(`streamDone` not set) when the fragments run out. -/
def sendMessage (p : List Char → ParseOutcome) (st : AppState) (oc : Outcome) : SendResult :=
  if jsTrim st.input = [] ∨ st.loading then ⟨st, 0⟩
  else
    let msgs1 := st.messages ++ [⟨Role.user, st.input⟩]
    match oc with
    | Outcome.httpError => ⟨⟨msgs1.dropLast, [], false⟩, 1⟩
    | Outcome.noBody => ⟨⟨msgs1, [], false⟩, 0⟩
    | Outcome.stream frags aborted =>
      let ds := runBytes p (initDecSt msgs1) frags
      if aborted ∧ ds.done = false then ⟨⟨ds.messages.dropLast, [], false⟩, 1⟩
      else ⟨⟨ds.messages, [], false⟩, 0⟩

/-- A parse model in which `JSON.parse` always throws. -/
def parseNone : List Char → ParseOutcome := fun _ => ParseOutcome.fail

/-- A parse model in which every payload parses and the extracted content is
the payload itself. -/
def parseEcho : List Char → ParseOutcome := fun s => ParseOutcome.ok (some s)

instance (p : List Char → ParseOutcome) (t : List Char) : Decidable (wellFormed p t) := by
  unfold wellFormed
  infer_instance

/-! ## Helper facts for the claim theorems -/

theorem data_line_facts {x : List Char} (h : dataPrefix.isPrefixOf x) :
    colonTok.isPrefixOf x = false ∧ jsTrim x ≠ [] := by
  obtain ⟨t, ht⟩ := List.isPrefixOf_iff_prefix.mp h
  constructor
  · rw [← ht]; rfl
  · rw [← ht]
    intro hempty
    have hx : dataPrefix ++ t = 'd' :: ("ata: ".toList ++ t) := rfl
    rw [hx] at hempty
    have hdW : isWS 'd' = false := rfl
    have hdrop : ('d' :: ("ata: ".toList ++ t)).dropWhile isWS =
        'd' :: ("ata: ".toList ++ t) := by
      rw [List.dropWhile_cons, hdW]
      simp
    unfold jsTrim at hempty
    rw [hdrop] at hempty
    rw [List.reverse_eq_nil_iff, List.dropWhile_eq_nil_iff] at hempty
    have hmem : 'd' ∈ ('d' :: ("ata: ".toList ++ t)).reverse := by simp
    have := hempty 'd' hmem
    rw [hdW] at this
    exact absurd this (by simp)

theorem classify_bad {p : List Char → ParseOutcome} {x : List Char}
    (hdata : dataPrefix.isPrefixOf x)
    (hnd : jsTrim (x.drop 6) ≠ doneTok)
    (hfail : p (jsTrim (x.drop 6)) = ParseOutcome.fail) :
    classifyLine p x = LineVerdict.bad := by
  obtain ⟨hc, hb⟩ := data_line_facts hdata
  simp only [classifyLine]
  rw [if_neg (by simp [hc, hb]), if_neg (by simp [hdata]), if_neg hnd, hfail]

theorem stream_rollback (p : List Char → ParseOutcome) (msgs1 : List Message)
    (frags : List (List Nat)) :
    (runBytes p (initDecSt msgs1) frags).messages.dropLast = msgs1 := by
  obtain ⟨hlen, htake⟩ := runBytes_frame p frags (initDecSt msgs1)
  have hinitm : (initDecSt msgs1).messages = msgs1 ++ [⟨Role.assistant, []⟩] := rfl
  have hinitl : (initDecSt msgs1).messages.length = msgs1.length + 1 := by
    rw [hinitm]; simp
  rw [List.dropLast_eq_take, hlen, hinitl]
  rw [hinitl] at htake
  simp only [Nat.add_sub_cancel] at htake ⊢
  rw [htake, hinitm]
  exact List.take_left msgs1 [⟨Role.assistant, []⟩]

/-! ## The claims -/

/-- C1: for every well-formed event stream and every way of splitting it
into a finite sequence of byte fragments (at arbitrary byte offsets,
including mid-line and mid-multibyte-character), running the decoder loop
over the fragments yields the same ordered sequence of ContentDelta texts as
running it over the whole stream delivered as one single fragment. -/
theorem c1_fragment_split_invariance (p : List Char → ParseOutcome)
    (msgs : List Message) (bs : List (List Nat))
    (hwf : wellFormed p (decodeChunk [] bs.join).1) :
    (runBytes p (initDecSt msgs) bs).deltas =
      (runBytes p (initDecSt msgs) [bs.join]).deltas := by
  have h1 := runBytes_join p bs (initDecSt msgs) rfl rfl (by simpa [initDecSt] using hwf)
  have h2 : runBytes p (initDecSt msgs) [bs.join] = feedBytes p (initDecSt msgs) bs.join := by
    have hjn : List.join [bs.join] = bs.join := by simp
    rw [show runBytes p (initDecSt msgs) [bs.join] =
        runBytes p (feedBytes p (initDecSt msgs) bs.join) [] from by
      simp [runBytes, initDecSt]]
    rfl
  rw [h2]
  have h3 := congrArg (fun t => t.2.1) h1
  simpa [obs] using h3

/-- Concrete stream for the C1 witness: the bytes of `"data: é\n"`. -/
def wBytes : List Nat := [100, 97, 116, 97, 58, 32, 195, 169, 10]

/-- The same bytes split in the middle of the two-byte character `é`. -/
def wFrags : List (List Nat) := [[100, 97, 116, 97, 58, 32, 195], [169, 10]]

/-- Witness for C1: a concrete well-formed stream, split mid-multibyte
character, decodes to the same deltas as the single-fragment delivery. -/
theorem c1_witness :
    wellFormed parseEcho (decodeChunk [] wFrags.join).1 ∧
    (runBytes parseEcho (initDecSt []) wFrags).deltas =
      (runBytes parseEcho (initDecSt []) [wFrags.join]).deltas :=
  ⟨by decide, c1_fragment_split_invariance parseEcho [] wFrags (by decide)⟩

/-- A data line that ends in a carriage return, as delivered (with the
terminating newline). -/
def crLine : List Char := "data: x\r\n".toList

/-- What actually ends up pushed back: the line with its trailing `\r`
already stripped, plus a newline. -/
def crPush : List Char := "data: x\n".toList

/-- C2 counterexample: the claim says the *original unstripped* line plus a
newline is pushed back onto the buffer. Feeding the fragment
`"data: x\r\n"` with a failing payload leaves `"data: x\n"` in the buffer —
the trailing `\r` of the original line has been stripped — so the pushed-back
text differs from the original line plus a newline. -/
theorem c2_counterexample :
    (feed parseNone (initDecSt []) crLine).buffer = crPush ∧ crPush ≠ crLine :=
  ⟨by decide, by decide⟩

/-- C2 (amended): when a complete `data: `-prefixed line whose payload is
not the sentinel fails structured-payload parsing, the line *with any
trailing carriage return removed* (but with its `data: ` prefix intact) plus
a newline is pushed back onto the front of the pending buffer, line
extraction stops immediately (the rest of the buffer is left untouched and
no state other than the buffer changes), and processing resumes only when
the next fragment is appended. -/
theorem c2_pushback (p : List Char → ParseOutcome) (st : DecSt) (l rest : List Char)
    (hnl : '\n' ∉ l)
    (hdata : dataPrefix.isPrefixOf (stripCR l))
    (hnd : jsTrim ((stripCR l).drop 6) ≠ doneTok)
    (hfail : p (jsTrim ((stripCR l).drop 6)) = ParseOutcome.fail) :
    processBuffer p { st with buffer := l ++ '\n' :: rest } =
      { st with buffer := stripCR l ++ '\n' :: rest } := by
  have hbl : breakLine ({ st with buffer := l ++ '\n' :: rest } : DecSt).buffer =
      some (l, rest) := by
    simpa using breakLine_intro rest hnl
  have hcl : classifyLine p (stripCR l) = LineVerdict.bad := classify_bad hdata hnd hfail
  have hx := processBuffer_bad hbl hcl
  simpa using hx

/-- Concrete failing data line for the C2 witness. -/
def cwLine : List Char := "data: y".toList

/-- Witness for C2 (amended) at a concrete line and state. -/
theorem c2_pushback_witness :
    ('\n' ∉ cwLine ∧ dataPrefix.isPrefixOf (stripCR cwLine) ∧
      jsTrim ((stripCR cwLine).drop 6) ≠ doneTok ∧
      parseNone (jsTrim ((stripCR cwLine).drop 6)) = ParseOutcome.fail) ∧
    processBuffer parseNone { initDecSt [] with buffer := cwLine ++ '\n' :: [] } =
      { initDecSt [] with buffer := stripCR cwLine ++ '\n' :: [] } :=
  ⟨⟨by decide, by decide, by decide, by decide⟩,
    c2_pushback parseNone (initDecSt []) cwLine [] (by decide) (by decide) (by decide)
      (by decide)⟩

/-- C3: once a line whose payload equals the sentinel `[DONE]` is processed,
the decoder signals StreamEnd (`streamDone = true`), emits no further
events, and consumes no further input: all later fragments leave the state
untouched, and any extra data arriving in the same fragment changes nothing
observable. -/
theorem c3_done_terminal (p : List Char → ParseOutcome) (st : DecSt)
    (u v : List Char) (fs : List (List Char))
    (h1 : st.done = false) (h2 : (feed p st u).done = true) :
    runFragments p (feed p st u) fs = feed p st u ∧
    obs (feed p st (u ++ v)) = obs (feed p st u) := by
  refine ⟨runFragments_done h2 fs, ?_⟩
  have hcomp := processBuffer_append_done p
    ({ st with buffer := st.buffer ++ u } : DecSt).buffer.length
    { st with buffer := st.buffer ++ u } v (le_refl _) (by simpa using h1) h2
  have hfe : feed p st (u ++ v) = processBuffer p
      { { st with buffer := st.buffer ++ u } with
        buffer := ({ st with buffer := st.buffer ++ u } : DecSt).buffer ++ v } := by
    unfold feed
    rw [show ({ st with buffer := st.buffer ++ (u ++ v) } : DecSt) =
        { { st with buffer := st.buffer ++ u } with
          buffer := ({ st with buffer := st.buffer ++ u } : DecSt).buffer ++ v } from by
      simp [List.append_assoc]]
  rw [hfe, hcomp]
  simp [obs, feed]

/-- Concrete fragments for the C3 witness. -/
def dlDone : List Char := "data: A\ndata: [DONE]\n".toList

/-- Extra data arriving after the sentinel in the same fragment. -/
def dlAfter : List Char := "data: B\n".toList

/-- A later fragment that must not be consumed. -/
def dlLater : List (List Char) := ["data: C\n".toList]

/-- Witness for C3 at a concrete stream containing `data: [DONE]`. -/
theorem c3_witness :
    ((initDecSt []).done = false ∧ (feed parseEcho (initDecSt []) dlDone).done = true) ∧
    (runFragments parseEcho (feed parseEcho (initDecSt []) dlDone) dlLater =
      feed parseEcho (initDecSt []) dlDone ∧
    obs (feed parseEcho (initDecSt []) (dlDone ++ dlAfter)) =
      obs (feed parseEcho (initDecSt []) dlDone)) :=
  ⟨⟨rfl, by decide⟩,
    c3_done_terminal parseEcho (initDecSt []) dlDone dlAfter dlLater rfl (by decide)⟩

/-- C4: for every stream run to completion, the concatenation of all
ContentDelta payloads, in arrival order, equals the full assistant reply
text held in the final assistant message (the last entry of the message
list). -/
theorem c4_deltas_concat (p : List Char → ParseOutcome) (msgs : List Message)
    (fs : List (List Nat)) :
    (runBytes p (initDecSt msgs) fs).messages.getLast?.map Message.content =
      some ((runBytes p (initDecSt msgs) fs).deltas.join) := by
  have hinit : (initDecSt msgs).messages.getLast?.map Message.content =
      some (initDecSt msgs).content := by
    rw [show (initDecSt msgs).messages = msgs ++ [⟨Role.assistant, []⟩] from rfl,
      getLast?_app_one]
    rfl
  have hL := runBytes_last p fs (initDecSt msgs) hinit
  obtain ⟨d, h1, h2⟩ := runBytes_deltas p fs (initDecSt msgs)
  rw [hL, h2, h1]
  rfl

/-- Concrete input text for the C5 counterexample. -/
def hiInput : List Char := "hi".toList

/-- C5 counterexample: on a non-success HTTP response the assistant
placeholder has not yet been appended, so the rollback
`setMessages(prev => prev.slice(0, -1))` removes the just-appended *user*
message, not an assistant message. Starting from an empty list and sending
`"hi"`, the final message list is empty — whereas the claim (assistant
message removed, user message retained) would leave `[user "hi"]`. -/
theorem c5_counterexample :
    (sendMessage parseNone ⟨[], hiInput, false⟩ Outcome.httpError).state.messages = [] ∧
    ([] : List Message) ≠ [⟨Role.user, hiInput⟩] :=
  ⟨by decide, by decide⟩

/-- C5 (amended): every transport failure raises exactly one user-facing
error notification, re-enables input, emits no further ContentDelta, and
removes the *last* message of the list: on a stream abort that is the
in-progress assistant message (so the user message is retained), while on a
non-success HTTP response — which occurs before the assistant placeholder is
appended — it is the just-appended user message. -/
theorem c5_error_rollback (p : List Char → ParseOutcome) (st : AppState)
    (frags : List (List Nat))
    (h1 : jsTrim st.input ≠ []) (h2 : st.loading = false)
    (h3 : (runBytes p (initDecSt (st.messages ++ [⟨Role.user, st.input⟩])) frags).done
      = false) :
    sendMessage p st Outcome.httpError = ⟨⟨st.messages, [], false⟩, 1⟩ ∧
    sendMessage p st (Outcome.stream frags true) =
      ⟨⟨st.messages ++ [⟨Role.user, st.input⟩], [], false⟩, 1⟩ := by
  have hcond : ¬(jsTrim st.input = [] ∨ st.loading) := by
    intro hx
    cases hx with
    | inl h => exact h1 h
    | inr h => rw [h2] at h; exact absurd h (by simp)
  constructor
  · unfold sendMessage
    rw [if_neg hcond]
    simp [List.dropLast_concat]
  · unfold sendMessage
    rw [if_neg hcond]
    dsimp only
    have habort : ((true : Bool) : Prop) ∧
        (runBytes p (initDecSt (st.messages ++ [⟨Role.user, st.input⟩])) frags).done
          = false := ⟨rfl, h3⟩
    rw [if_pos habort]
    rw [stream_rollback]

/-- Witness for C5 (amended) at a concrete state and an empty fragment
list (abort on the very first read). -/
theorem c5_error_rollback_witness :
    (jsTrim hiInput ≠ [] ∧ (false : Bool) = false ∧
      (runBytes parseNone (initDecSt ([] ++ [⟨Role.user, hiInput⟩])) []).done = false) ∧
    (sendMessage parseNone ⟨[], hiInput, false⟩ Outcome.httpError =
        ⟨⟨[], [], false⟩, 1⟩ ∧
      sendMessage parseNone ⟨[], hiInput, false⟩ (Outcome.stream [] true) =
        ⟨⟨[] ++ [⟨Role.user, hiInput⟩], [], false⟩, 1⟩) :=
  ⟨⟨by decide, rfl, by decide⟩,
    c5_error_rollback parseNone ⟨[], hiInput, false⟩ [] (by decide) rfl (by decide)⟩

/-- C6: a complete line starting with `:` or blank after whitespace trim
(including a line whose only content was a trailing `\r`) produces no event
and leaves processing of the rest of the buffer exactly as if the line had
never been there. -/
theorem c6_ignored_lines (p : List Char → ParseOutcome) (st : DecSt)
    (l rest : List Char) (hnl : '\n' ∉ l)
    (hcb : colonTok.isPrefixOf (stripCR l) ∨ jsTrim (stripCR l) = []) :
    processBuffer p { st with buffer := l ++ '\n' :: rest } =
      processBuffer p { st with buffer := rest } := by
  have hbl : breakLine ({ st with buffer := l ++ '\n' :: rest } : DecSt).buffer =
      some (l, rest) := by
    simpa using breakLine_intro rest hnl
  have hcl : classifyLine p (stripCR l) = LineVerdict.skip := by
    simp only [classifyLine]
    rw [if_pos hcb]
  have hx := processBuffer_skip hbl hcl
  simpa using hx

/-- A line whose only content is a carriage return. -/
def crOnly : List Char := "\r".toList

/-- The rest of the buffer behind the ignored line for the C6 witness. -/
def c6Rest : List Char := "data: z\n".toList

/-- Witness for C6 at a concrete `"\r"` line followed by a data line. -/
theorem c6_witness :
    ('\n' ∉ crOnly ∧
      (colonTok.isPrefixOf (stripCR crOnly) ∨ jsTrim (stripCR crOnly) = [])) ∧
    processBuffer parseEcho { initDecSt [] with buffer := crOnly ++ '\n' :: c6Rest } =
      processBuffer parseEcho { initDecSt [] with buffer := c6Rest } :=
  ⟨⟨by decide, by decide⟩,
    c6_ignored_lines parseEcho (initDecSt []) crOnly c6Rest (by decide) (by decide)⟩

/-- C7: while a stream is in progress the text of the last assistant message
grows monotonically: at every point of the run the last message holds the
accumulated reply text, and the text accumulated after any earlier prefix of
the fragments is a prefix of the text after any later point. -/
theorem c7_monotone (p : List Char → ParseOutcome) (msgs : List Message)
    (fs gs : List (List Nat)) :
    ((runBytes p (initDecSt msgs) fs).messages.getLast?.map Message.content =
      some (runBytes p (initDecSt msgs) fs).content) ∧
    (runBytes p (initDecSt msgs) fs).content <+:
      (runBytes p (runBytes p (initDecSt msgs) fs) gs).content ∧
    ((runBytes p (runBytes p (initDecSt msgs) fs) gs).messages.getLast?.map
        Message.content =
      some (runBytes p (runBytes p (initDecSt msgs) fs) gs).content) := by
  have hinit : (initDecSt msgs).messages.getLast?.map Message.content =
      some (initDecSt msgs).content := by
    rw [show (initDecSt msgs).messages = msgs ++ [⟨Role.assistant, []⟩] from rfl,
      getLast?_app_one]
    rfl
  have h1 := runBytes_last p fs (initDecSt msgs) hinit
  refine ⟨h1, ?_, runBytes_last p gs _ h1⟩
  obtain ⟨d, hd1, hd2⟩ := runBytes_deltas p gs (runBytes p (initDecSt msgs) fs)
  exact ⟨d.join, hd2.symm⟩

/-- C8: when a request is already in flight (`loading` set), invoking the
send action is a no-op: whatever the transport would have answered, the
state (message list, input text, loading flag) is returned unchanged and no
notification is raised. -/
theorem c8_send_noop (p : List Char → ParseOutcome) (msgs : List Message)
    (inp : List Char) (oc : Outcome) :
    sendMessage p ⟨msgs, inp, true⟩ oc = ⟨⟨msgs, inp, true⟩, 0⟩ := by
  unfold sendMessage
  rw [if_pos (Or.inr rfl)]

theorem c9_aux (p : List Char → ParseOutcome) (l : List Char)
    (hnl : '\n' ∉ l) (hcr : stripCR l = l)
    (hdata : dataPrefix.isPrefixOf l)
    (hnd : jsTrim (l.drop 6) ≠ doneTok)
    (hfail : p (jsTrim (l.drop 6)) = ParseOutcome.fail) :
    ∀ fs : List (List Char), ∀ st : DecSt, ∀ rest : List Char,
      st.done = false → st.buffer = l ++ '\n' :: rest →
      runFragments p st fs = { st with buffer := st.buffer ++ fs.join } := by
  intro fs
  induction fs with
  | nil =>
    intro st rest h1 hbuf
    obtain ⟨sb, sd, sc, sm, sdl, su⟩ := st
    simp [runFragments]
  | cons f fs ih =>
    intro st rest h1 hbuf
    have hfeed : feed p st f = { st with buffer := l ++ '\n' :: (rest ++ f) } := by
      unfold feed
      have hbl : breakLine ({ st with buffer := st.buffer ++ f } : DecSt).buffer =
          some (l, rest ++ f) := by
        have hx := breakLine_append f (breakLine_intro (l := l) rest hnl)
        rw [show ({ st with buffer := st.buffer ++ f } : DecSt).buffer =
            (l ++ '\n' :: rest) ++ f from by rw [← hbuf]]
        exact hx
      have hcl : classifyLine p (stripCR l) = LineVerdict.bad := by
        rw [hcr]; exact classify_bad hdata hnd hfail
      have hx := processBuffer_bad hbl hcl
      rw [hx, hcr]
    have hstep : runFragments p st (f :: fs) = runFragments p (feed p st f) fs := by
      simp [runFragments, h1]
    rw [hstep, hfeed]
    have hrec := ih { st with buffer := l ++ '\n' :: (rest ++ f) } (rest ++ f)
      (by simp [h1]) (by simp)
    rw [hrec]
    rw [show ({ st with buffer := l ++ '\n' :: (rest ++ f) } : DecSt).buffer =
        l ++ '\n' :: (rest ++ f) from rfl]
    rw [hbuf]
    simp [List.append_assoc]

/-- C9: once the front of the pending buffer holds a complete
`data: `-prefixed line whose payload never parses, the decoder never emits
another ContentDelta: every subsequent fragment is appended behind the stuck
line and nothing else in the state changes, so the buffer grows with every
arriving fragment while all later events stay queued behind the bad line. -/
theorem c9_poison_blocks (p : List Char → ParseOutcome) (st : DecSt)
    (l rest : List Char) (fs : List (List Char))
    (h1 : st.done = false)
    (hbuf : st.buffer = l ++ '\n' :: rest)
    (hnl : '\n' ∉ l) (hcr : stripCR l = l)
    (hdata : dataPrefix.isPrefixOf l)
    (hnd : jsTrim (l.drop 6) ≠ doneTok)
    (hfail : p (jsTrim (l.drop 6)) = ParseOutcome.fail) :
    runFragments p st fs = { st with buffer := st.buffer ++ fs.join } :=
  c9_aux p l hnl hcr hdata hnd hfail fs st rest h1 hbuf

/-- Fragments arriving behind a stuck line for the C9 witness. -/
def c9Frags : List (List Char) := ["data: ok\n".toList, "data: more\n".toList]

/-- A decoder state whose buffer is headed by a complete failing data line.  -/
def c9St : DecSt :=
  { buffer := cwLine ++ '\n' :: [], done := false, content := [], messages := [],
    deltas := [], u8 := [] }

/-- Witness for C9 at a concrete poisoned state and two later fragments. -/
theorem c9_witness :
    (c9St.done = false ∧ c9St.buffer = cwLine ++ '\n' :: [] ∧ '\n' ∉ cwLine ∧
      stripCR cwLine = cwLine ∧ dataPrefix.isPrefixOf cwLine ∧
      jsTrim (cwLine.drop 6) ≠ doneTok ∧
      parseNone (jsTrim (cwLine.drop 6)) = ParseOutcome.fail) ∧
    runFragments parseNone c9St c9Frags = { c9St with buffer := c9St.buffer ++ c9Frags.join } :=
  ⟨⟨rfl, rfl, by decide, by decide, by decide, by decide, by decide⟩,
    c9_poison_blocks parseNone c9St cwLine [] c9Frags rfl rfl (by decide) (by decide)
      (by decide) (by decide) (by decide)⟩

/-- C10: every message-list update performed during streaming replaces only
the element at the last index: over any run, the list length is unchanged
and all messages at earlier indices are unchanged in role, content and
order. -/
theorem c10_frame (p : List Char → ParseOutcome) (st : DecSt) (fs : List (List Nat)) :
    (runBytes p st fs).messages.length = st.messages.length ∧
    (runBytes p st fs).messages.take (st.messages.length - 1) =
      st.messages.take (st.messages.length - 1) :=
  runBytes_frame p fs st
